import Mathlib

/-!
Verification of the quadkey library (src/quadkey.go).

The Go code has two layers:

* an exact integer/string layer: quadkey validation, the digit codec
  (`FromXYZ`, `QuadKey.XYZ`), and hierarchy navigation (`Parent`, `Children`);
* a geometric layer over `float64`: `normalize`, `toX`, `toY`, `Bound`,
  `FromLonLat` and `KeysInBound`.

The integer layer is embedded exactly, including the two's-complement
wrap-around of Go's 64-bit `int` (`wrap64`, `goMask`): the shifted masks
`1 << (i-1)` used by the codec wrap to a negative value at bit 63 and to
zero from bit 64 on, and `x << 1` in `Children` wraps as well.

The geometric layer is embedded over the real numbers (the exact-arithmetic
idealization of `float64`): every float expression of the source is
translated literally to the same real expression.  The one operation with no
real-number counterpart is `math.Nextafter` (one representable step towards
a bound), so `KeysInBound` takes that step function as an explicit parameter
`na`; closed evaluations instantiate it with the concrete `naModel`.  Real
`float64` rounding can diverge from the exact-real idealization (one-ulp
nudges can be absorbed by later additions, and subnormal values can
underflow to zero in later multiplications), so the geometric results proved
here are confined to evaluations whose decisive comparisons are exact in
`float64` as well (tile-boundary longitudes at low zoom, degenerate boxes).
-/

namespace Quadkey

/-- Model of the Go `QuadKey` string type (src/quadkey.go:19): a quadkey is
its sequence of characters.  Go strings are byte strings and quadkeys are
ASCII, so a list of characters is a faithful model. -/
abbrev QuadKey := List Char

/-- The error values produced by the Go code, by their meaning:
`errors.New("key is empty")`, `fmt.Errorf("key contains invalid digit at
index %d: %q", i, key[i])` and `errors.New("key is root")`. -/
inductive GoErr : Type
  | emptyKey : GoErr
  | invalidDigit : ℕ → Char → GoErr
  | rootKey : GoErr
deriving DecidableEq

/-- Loop of `QuadKey.Valid` (src/quadkey.go:29-36): scan the characters from
index `i`; the `switch` accepting `'0','1','2','3'` becomes a disjunction
test; the first offending character yields its error, otherwise `none`. -/
def validFrom : ℕ → List Char → Option GoErr
  | _, [] => none
  | i, c :: rest =>
    if c = '0' ∨ c = '1' ∨ c = '2' ∨ c = '3' then validFrom (i + 1) rest
    else some (.invalidDigit i c)

/-- `QuadKey.Valid` (src/quadkey.go:25-38); `none` models the `nil` error. -/
def Valid (key : QuadKey) : Option GoErr :=
  if key = [] then some .emptyKey else validFrom 0 key

/-- `QuadKey.Z` (src/quadkey.go:40-42): the key length. -/
def Z (key : QuadKey) : ℕ := key.length

/-- Reduction of an integer into the range of Go's 64-bit `int`
(`[-2^63, 2^63)`, two's complement): every arithmetic operation of the
source that can overflow is followed by this reduction. -/
def wrap64 (n : ℤ) : ℤ := (n + 2 ^ 63) % 2 ^ 64 - 2 ^ 63

/-- Go `1 << k` on `int`: the power `2 ^ k` wrapped to 64 bits.  For
`k ≤ 62` this is `2 ^ k`, for `k = 63` it is `-2^63`, and from `k = 64` on
it is `0` — exactly Go's shift semantics. -/
def goMask (k : ℕ) : ℤ := wrap64 (2 ^ k)

/-- Loop of `QuadKey.XYZ` (src/quadkey.go:49-66).  The source walks `i` from
`z` down to `1` on 64-bit `int`s, reading `key[z-i]` with
`mask = 1 << (i-1)`: the character at distance `rest.length` from the end
contributes the mask `goMask rest.length` to `x` and `y`, which this right
fold reproduces; `x |= mask` is the two's-complement bitwise or `Int.lor`
(bitwise or is commutative and associative, so the accumulation order of the
source does not matter).  `none` models the `default` branch returning the
sentinel. -/
def xyzCore : List Char → Option (ℤ × ℤ)
  | [] => some (0, 0)
  | c :: rest =>
    match xyzCore rest with
    | none => none
    | some (x, y) =>
      let mask : ℤ := goMask rest.length
      if c = '0' then some (x, y)
      else if c = '1' then some (Int.lor x mask, y)
      else if c = '2' then some (x, Int.lor y mask)
      else if c = '3' then some (Int.lor x mask, Int.lor y mask)
      else none

/-- `QuadKey.XYZ` (src/quadkey.go:44-68): the sentinel `(-1,-1,-1)` when
`Valid` fails (or on the loop's unreachable `default` branch), otherwise the
decoded grid coordinate with `z` the key length. -/
def XYZ (key : QuadKey) : ℤ × ℤ × ℤ :=
  match Valid key with
  | some _ => (-1, -1, -1)
  | none =>
    match xyzCore key with
    | some (x, y) => (x, y, (key.length : ℤ))
    | none => (-1, -1, -1)

/-- `QuadKey.Parent` (src/quadkey.go:70-80): `key[:z-1]` is the list of the
first `z - 1` characters. -/
def Parent (key : QuadKey) : Except GoErr QuadKey :=
  match Valid key with
  | some e => .error e
  | none =>
    if key.length = 1 then .error .rootKey
    else .ok (key.take (key.length - 1))

/-- The digit byte built by `FromXYZ` (src/quadkey.go:196-203): `'0'`,
incremented by `1` when the `x` bit is set and by `2` when the `y` bit is
set. -/
def digitChar (xb yb : Bool) : Char :=
  match xb, yb with
  | false, false => '0'
  | true, false => '1'
  | false, true => '2'
  | true, true => '3'

/-- `FromXYZ` (src/quadkey.go:193-207).  The loop writes at position `z - i`
the digit selected by `x & mask` and `y & mask` with the wrapped 64-bit mask
`mask = 1 << (i-1)` (`goMask (i-1)`); `&` on Go's two's-complement `int` is
`Int.land`.  Recursively: the first digit tests the mask `goMask (z-1)`, and
the remaining digits are the zoom `z - 1` encoding, which only tests lower
masks.  Go would panic on `make([]byte, z)` for negative `z`, so the zoom is
a natural number here. -/
def FromXYZ (x y : ℤ) : ℕ → QuadKey
  | 0 => []
  | z + 1 =>
    digitChar (decide (Int.land x (goMask z) ≠ 0))
      (decide (Int.land y (goMask z) ≠ 0)) :: FromXYZ x y z

/-- `QuadKey.Children` (src/quadkey.go:82-102): the empty list on an invalid
key or on the negative-coordinate guard (reachable: a 64-digit key decodes
to a negative coordinate when bit 63 is set); otherwise the four children at
zoom `z + 1` in digit order, with `cx = x << 1` the 64-bit wrap of `2*x` and
likewise `cy`.  On the taken branch `z ≥ 0`, so `z + 1` is `toNat z + 1`;
`cx + 1` cannot overflow because `cx` is even. -/
def Children (key : QuadKey) : List QuadKey :=
  match Valid key with
  | some _ => []
  | none =>
    let t := XYZ key
    if t.1 < 0 ∨ t.2.1 < 0 ∨ t.2.2 < 0 then []
    else
      let cx := wrap64 (2 * t.1)
      let cy := wrap64 (2 * t.2.1)
      let zz := t.2.2.toNat + 1
      [FromXYZ cx cy zz, FromXYZ (cx + 1) cy zz,
        FromXYZ cx (cy + 1) zz, FromXYZ (cx + 1) (cy + 1) zz]

/-- Proof helper (not in the source): the digit codec of `FromXYZ` with the
mask test read as a bit test on the unbounded integer; `x & (1 << z) != 0`
is `Int.testBit x z` whenever the mask does not wrap to zero, and
`FromXYZ_eq_bits` shows the two codecs agree on wrapped 64-bit inputs at
zoom at most 64. -/
def fromXYZBits (x y : ℤ) : ℕ → QuadKey
  | 0 => []
  | z + 1 => digitChar (x.testBit z) (y.testBit z) :: fromXYZBits x y z

/-- Proof helper (not in the source): the decode loop of `XYZ` over
unbounded naturals, with the mask as the exact power `2 ^ rest.length`;
`xyzCore_eq_coreN` shows it agrees with `xyzCore` on keys of at most 63
digits, where no mask wraps. -/
def xyzCoreN : List Char → Option (ℕ × ℕ)
  | [] => some (0, 0)
  | c :: rest =>
    match xyzCoreN rest with
    | none => none
    | some (x, y) =>
      let mask : ℕ := 2 ^ rest.length
      if c = '0' then some (x, y)
      else if c = '1' then some (x ||| mask, y)
      else if c = '2' then some (x, y ||| mask)
      else if c = '3' then some (x ||| mask, y ||| mask)
      else none

noncomputable section

open Real

/-- `MERCATOR_MAX_LAT` (src/quadkey.go:13), as the exact decimal value of the
source literal. -/
def MERCATOR_MAX_LAT : ℝ := 85.05112878

/-- Truncation towards zero: Go's float-to-int conversion and the integral
part used by `math.Mod`. -/
def trunc (r : ℝ) : ℤ := if 0 ≤ r then ⌊r⌋ else ⌈r⌉

/-- Go `math.Mod(x, y)`: the remainder `x - y * trunc (x / y)`, which keeps
the sign of `x` (idealized over exact reals). -/
def goMod (x y : ℝ) : ℝ := x - y * (trunc (x / y) : ℝ)

/-- `normalize` (src/quadkey.go:157-174): longitude reduced by `math.Mod`
into `(-180, 180]`, latitude clamped to `±MERCATOR_MAX_LAT`. -/
def normalize (lon lat : ℝ) : ℝ × ℝ :=
  let lon1 := goMod lon 360
  let lon2 :=
    if lon1 ≤ -180 then lon1 + 360
    else if lon1 > 180 then lon1 - 360
    else lon1
  let lat1 :=
    if lat > MERCATOR_MAX_LAT then MERCATOR_MAX_LAT
    else if lat < -MERCATOR_MAX_LAT then -MERCATOR_MAX_LAT
    else lat
  (lon2, lat1)

/-- `toX` (src/quadkey.go:176-180): `math.Floor`, then clamp into
`[0, n-1]`.  The floored value is integral, so the source's float
`Max`/`Min` and `int` conversion are the integer `max`/`min` here.  This is
the exact-real idealization of the `float64` computation: it agrees with the
source when the intermediate sums and products are exactly representable
(all uses below are of this kind), but not universally — e.g. a one-ulp
offset below `±180` is absorbed by the `+ 180`. -/
def toX (lon : ℝ) (z : ℕ) : ℤ :=
  max 0 (min ⌊(lon + 180) / 360 * (2 : ℝ) ^ z⌋ (2 ^ z - 1))

/-- `toY` (src/quadkey.go:182-187): the Web Mercator forward projection
`floor((1 - log(tan rad + 1/cos rad)/π)/2 * n)`, then clamp into
`[0, n-1]`.  Exact-real idealization of the `float64` computation, with the
same caveat as `toX` (e.g. a subnormal latitude underflows to `0` in the
source's `lat * π / 180` but stays positive here). -/
def toY (lat : ℝ) (z : ℕ) : ℤ :=
  let rad := lat * π / 180
  max 0
    (min ⌊(1 - Real.log (Real.tan rad + 1 / Real.cos rad) / π) / 2 * (2 : ℝ) ^ z⌋
      (2 ^ z - 1))

/-- `FromLonLat` (src/quadkey.go:209-214). -/
def FromLonLat (lon lat : ℝ) (zoom : ℕ) : QuadKey :=
  let p := normalize lon lat
  FromXYZ (toX p.1 zoom) (toY p.2 zoom) zoom

/-- Model of `orb.Bound`: the min corner `(left, bottom)` and max corner
`(right, top)`, in degrees.  The zero value `orb.Bound{}` is `⟨0,0,0,0⟩`. -/
structure GoBound where
  left : ℝ
  bottom : ℝ
  right : ℝ
  top : ℝ

/-- `orb.LineString{p, q}.Bound()` for the two-point diagonal used by
`QuadKey.Bound` (src/quadkey.go:121-125): the componentwise min/max box of
the two points. -/
def diagonalBound (p q : ℝ × ℝ) : GoBound :=
  ⟨min p.1 q.1, min p.2 q.2, max p.1 q.1, max p.2 q.2⟩

/-- `QuadKey.Bound` (src/quadkey.go:104-126); `math.Pow(2, z)` is
`(2:ℝ) ^ z`.  Returns the zero `orb.Bound{}` on an invalid key or on the
unreachable negative-coordinate guard. -/
def Bound (key : QuadKey) : GoBound :=
  match Valid key with
  | some _ => ⟨0, 0, 0, 0⟩
  | none =>
    let t := XYZ key
    if t.1 < 0 ∨ t.2.1 < 0 ∨ t.2.2 < 0 then ⟨0, 0, 0, 0⟩
    else
      let n : ℝ := (2 : ℝ) ^ t.2.2.toNat
      let west := (t.1 : ℝ) / n * 360 - 180
      let east := ((t.1 : ℝ) + 1) / n * 360 - 180
      let north := Real.arctan (Real.sinh (π * (1 - 2 * (t.2.1 : ℝ) / n))) * 180 / π
      let south :=
        Real.arctan (Real.sinh (π * (1 - 2 * ((t.2.1 : ℝ) + 1) / n))) * 180 / π
      diagonalBound (west, north) (east, south)

/-- Specification of Go `math.Nextafter(a, b)` for `a ≠ b`: one
representable step from `a` towards `b`, hence strictly on `b`'s side of `a`
and not beyond `b`.  A one-ulp step has no exact-real counterpart, so
`KeysInBound` takes the step function as a parameter; `naModel` below is one
function satisfying this predicate, used for closed evaluations. -/
def NextafterSpec (na : ℝ → ℝ → ℝ) : Prop :=
  ∀ a b : ℝ, (a < b → a < na a b ∧ na a b ≤ b) ∧ (b < a → b ≤ na a b ∧ na a b < a)

/-- A concrete step function satisfying `NextafterSpec`, used to obtain
closed instances of `KeysInBound`. -/
def naModel (a b : ℝ) : ℝ := a + (b - a) / 2 ^ 100

/-- `KeysInBound` (src/quadkey.go:231-279) with the `math.Nextafter` step as
the parameter `na`.  The source guards each nudge by `!=`, nudges the east
edge towards `west` and the south edge towards `north`, projects, swaps an
inverted range (written with `min`/`max` here), and emits the grid cells
with `x` outer and `y` inner. -/
def KeysInBound (na : ℝ → ℝ → ℝ) (b : GoBound) (zoom : ℕ) : List QuadKey :=
  let ws := normalize b.left b.bottom
  let en := normalize b.right b.top
  let west := ws.1
  let south := ws.2
  let east := en.1
  let north := en.2
  let eastIn := if east = west then east else na east west
  let southIn := if south = north then south else na south north
  let minX := min (toX west zoom) (toX eastIn zoom)
  let maxX := max (toX west zoom) (toX eastIn zoom)
  let minY := min (toY north zoom) (toY southIn zoom)
  let maxY := max (toY north zoom) (toY southIn zoom)
  if maxX < minX ∨ maxY < minY then []
  else
    (List.range (maxX - minX + 1).toNat).flatMap fun (i : ℕ) =>
      (List.range (maxY - minY + 1).toNat).map fun (j : ℕ) =>
        FromXYZ (minX + (i : ℤ)) (minY + (j : ℤ)) zoom

/-- Proof helper: the Mercator forward quantity `arsinh (tan rad)` of a
latitude in degrees; on `(-90, 90)` this equals the source's
`log(tan rad + 1/cos rad)` (see `log_tan_add_inv_cos`). -/
def mercA (lat : ℝ) : ℝ := Real.arsinh (Real.tan (lat * π / 180))

/-- Proof helper: the latitude of the horizontal edge above row `r` of the
`2^z` grid, as computed by `QuadKey.Bound`. -/
def edgeLat (z : ℕ) (r : ℤ) : ℝ :=
  Real.arctan (Real.sinh (π * (1 - 2 * (r : ℝ) / (2 : ℝ) ^ z))) * 180 / π

end

open Real

/-! ## Lemmas about the integer layer -/

lemma validFrom_eq_none_iff (cs : List Char) :
    ∀ i, validFrom i cs = none ↔ ∀ c ∈ cs, c = '0' ∨ c = '1' ∨ c = '2' ∨ c = '3' := by
  induction cs with
  | nil => simp [validFrom]
  | cons c rest ih =>
    intro i
    by_cases h : c = '0' ∨ c = '1' ∨ c = '2' ∨ c = '3'
    · simp [validFrom, h, ih]
    · simp [validFrom, h]

lemma Valid_eq_none_iff (key : QuadKey) :
    Valid key = none ↔ key ≠ [] ∧ ∀ c ∈ key, c = '0' ∨ c = '1' ∨ c = '2' ∨ c = '3' := by
  by_cases hk : key = []
  · simp [Valid, hk]
  · simp [Valid, hk, validFrom_eq_none_iff]

lemma validFrom_ne_rootKey (cs : List Char) :
    ∀ i, validFrom i cs ≠ some GoErr.rootKey := by
  induction cs with
  | nil => simp [validFrom]
  | cons c rest ih =>
    intro i
    by_cases h : c = '0' ∨ c = '1' ∨ c = '2' ∨ c = '3'
    · simpa [validFrom, h] using ih (i + 1)
    · simp [validFrom, h]

lemma Valid_ne_rootKey {key : QuadKey} {e : GoErr} (h : Valid key = some e) :
    e ≠ GoErr.rootKey := by
  by_cases hk : key = []
  · simp [Valid, hk] at h
    simp [← h]
  · simp [Valid, hk] at h
    intro he
    exact validFrom_ne_rootKey key 0 (he ▸ h)

lemma lor_two_pow_eq {x k : ℕ} (h : x < 2 ^ k) : x ||| 2 ^ k = 2 ^ k + x := by
  apply Nat.eq_of_testBit_eq
  intro i
  rcases lt_trichotomy i k with hik | rfl | hik
  · rw [Nat.testBit_lor, Nat.testBit_two_pow_of_ne (by omega), Bool.or_false,
      Nat.testBit_two_pow_add_gt hik]
  · rw [Nat.testBit_lor, Nat.testBit_two_pow_self, Bool.or_true,
      Nat.testBit_two_pow_add_eq, Nat.testBit_lt_two_pow h, Bool.not_false]
  · have hx2 : x < 2 ^ i :=
      lt_of_lt_of_le h (Nat.pow_le_pow_right (by norm_num) hik.le)
    have hsum : 2 ^ k + x < 2 ^ i := by
      have h1 : 2 ^ k + x < 2 ^ (k + 1) := by
        have : (2 : ℕ) ^ (k + 1) = 2 ^ k + 2 ^ k := by ring
        omega
      exact lt_of_lt_of_le h1 (Nat.pow_le_pow_right (by norm_num) (by omega))
    rw [Nat.testBit_lor, Nat.testBit_lt_two_pow hx2,
      Nat.testBit_two_pow_of_ne (by omega), Nat.testBit_lt_two_pow hsum, Bool.or_false]

lemma xyzCoreN_lt (cs : List Char) (x y : ℕ) (h : xyzCoreN cs = some (x, y)) :
    x < 2 ^ cs.length ∧ y < 2 ^ cs.length := by
  induction cs generalizing x y with
  | nil =>
    simp only [xyzCoreN, Option.some.injEq, Prod.mk.injEq] at h
    simp [← h.1, ← h.2]
  | cons c rest ih =>
    rw [xyzCoreN] at h
    rcases hr : xyzCoreN rest with _ | p
    · rw [hr] at h; exact absurd h (by simp)
    · rw [hr] at h
      obtain ⟨xr, yr⟩ := p
      obtain ⟨hxr, hyr⟩ := ih xr yr hr
      have hpow : (2 : ℕ) ^ (c :: rest).length = 2 ^ rest.length + 2 ^ rest.length := by
        simp [List.length_cons]; ring
      have horx : xr ||| 2 ^ rest.length = 2 ^ rest.length + xr := lor_two_pow_eq hxr
      have hory : yr ||| 2 ^ rest.length = 2 ^ rest.length + yr := lor_two_pow_eq hyr
      split_ifs at h <;> simp only [Option.some.injEq, Prod.mk.injEq] at h
      all_goals
        obtain ⟨hx, hy⟩ := h
        subst hx
        subst hy
      · constructor <;> [skip; skip] <;> simp [List.length_cons] <;> omega
      · rw [horx]; omega
      · rw [hory]; omega
      · rw [horx, hory]; omega

lemma FromXYZ_length (x y : ℤ) (z : ℕ) : (FromXYZ x y z).length = z := by
  induction z with
  | zero => rfl
  | succ n ih => simp [FromXYZ, ih]

lemma fromXYZBits_length (x y : ℤ) (z : ℕ) : (fromXYZBits x y z).length = z := by
  induction z with
  | zero => rfl
  | succ n ih => simp [fromXYZBits, ih]

lemma digitChar_cases (a b : Bool) :
    digitChar a b = '0' ∨ digitChar a b = '1' ∨ digitChar a b = '2' ∨ digitChar a b = '3' := by
  cases a <;> cases b <;> simp [digitChar]

lemma fromXYZBits_valid (x y : ℤ) (z : ℕ) (hz : 1 ≤ z) :
    Valid (fromXYZBits x y z) = none := by
  rw [Valid_eq_none_iff]
  constructor
  · intro h
    have := fromXYZBits_length x y z
    rw [h] at this
    simp at this
    omega
  · intro c hc
    induction z with
    | zero => simp [fromXYZBits] at hc
    | succ n ih =>
      rw [fromXYZBits, List.mem_cons] at hc
      rcases hc with rfl | hc
      · exact digitChar_cases _ _
      · cases n with
        | zero => simp [fromXYZBits] at hc
        | succ m => exact ih (by omega) hc

lemma intTestBit_natCast (n i : ℕ) : Int.testBit (n : ℤ) i = n.testBit i := rfl

lemma mod_pow_succ_testBit (n z : ℕ) :
    n % 2 ^ (z + 1) = (if n.testBit z then 2 ^ z else 0) + n % 2 ^ z := by
  have hmod : n / 2 ^ z % 2 = 0 ∨ n / 2 ^ z % 2 = 1 := by omega
  rw [Nat.mod_pow_succ]
  rcases hb : n.testBit z with _ | _
  · rw [Nat.testBit_to_div_mod] at hb
    simp only [decide_eq_false_iff_not] at hb
    have h0 : n / 2 ^ z % 2 = 0 := by omega
    simp [h0]
  · rw [Nat.testBit_to_div_mod] at hb
    simp only [decide_eq_true_eq] at hb
    simp [hb]; ring

lemma xyzCoreN_fromXYZBits (n m : ℕ) :
    ∀ z, xyzCoreN (fromXYZBits (n : ℤ) (m : ℤ) z) = some (n % 2 ^ z, m % 2 ^ z) := by
  intro z
  induction z with
  | zero => simp only [fromXYZBits, xyzCoreN, Nat.pow_zero, Nat.mod_one]
  | succ z ih =>
    have hxlt : n % 2 ^ z < 2 ^ z := Nat.mod_lt _ (by positivity)
    have hylt : m % 2 ^ z < 2 ^ z := Nat.mod_lt _ (by positivity)
    rw [fromXYZBits, xyzCoreN, ih, intTestBit_natCast, intTestBit_natCast,
      fromXYZBits_length]
    rcases hbx : n.testBit z with _ | _ <;> rcases hby : m.testBit z with _ | _ <;>
      simp only [digitChar] <;>
      rw [mod_pow_succ_testBit n z, mod_pow_succ_testBit m z, hbx, hby] <;>
      simp [lor_two_pow_eq hxlt, lor_two_pow_eq hylt]

/-! ### Bridging the wrapped 64-bit codec to the unbounded bit codec -/

lemma wrap64_of_lt {w : ℕ} (hw : w < 2 ^ 63) : wrap64 (w : ℤ) = (w : ℤ) := by
  unfold wrap64
  have hw' : (w : ℤ) < 9223372036854775808 := by
    rw [show (9223372036854775808 : ℤ) = (2 : ℤ) ^ 63 by norm_num]
    exact_mod_cast lt_of_lt_of_le hw (by norm_num)
  rw [show (2 : ℤ) ^ 63 = 9223372036854775808 by norm_num,
    show (2 : ℤ) ^ 64 = 18446744073709551616 by norm_num]
  omega

lemma wrap64_of_ge {w : ℕ} (h1 : 2 ^ 63 ≤ w) (h2 : w < 2 ^ 64) :
    wrap64 (w : ℤ) = Int.negSucc (2 ^ 64 - w - 1) := by
  unfold wrap64
  rw [Int.negSucc_eq]
  rw [show (2 : ℤ) ^ 63 = 9223372036854775808 by norm_num,
    show (2 : ℤ) ^ 64 = 18446744073709551616 by norm_num]
  rw [show (2 : ℕ) ^ 63 = 9223372036854775808 by norm_num] at h1
  rw [show (2 : ℕ) ^ 64 = 18446744073709551616 by norm_num] at h2 ⊢
  omega

lemma goMask_small {k : ℕ} (hk : k ≤ 62) : goMask k = (2 : ℤ) ^ k := by
  unfold goMask wrap64
  have hle : (2 : ℤ) ^ k ≤ 2 ^ 62 := pow_le_pow_right₀ (by norm_num) hk
  have hpos : (0 : ℤ) < 2 ^ k := by positivity
  rw [show (2 : ℤ) ^ 62 = 4611686018427387904 by norm_num] at hle
  rw [show (2 : ℤ) ^ 63 = 9223372036854775808 by norm_num,
    show (2 : ℤ) ^ 64 = 18446744073709551616 by norm_num]
  omega

lemma goMask_63 : goMask 63 = Int.negSucc (2 ^ 63 - 1) := by
  unfold goMask wrap64
  rw [Int.negSucc_eq]
  rw [show ((2 ^ 63 - 1 : ℕ) : ℤ) = 9223372036854775807 by norm_num,
    show (2 : ℤ) ^ 63 = 9223372036854775808 by norm_num,
    show (2 : ℤ) ^ 64 = 18446744073709551616 by norm_num]
  omega

lemma int_land_ofNat (a b : ℕ) : Int.land (a : ℤ) (b : ℤ) = ((a &&& b : ℕ) : ℤ) := rfl

lemma int_land_negSucc_right (a b : ℕ) :
    Int.land (a : ℤ) (Int.negSucc b) = ((Nat.ldiff a b : ℕ) : ℤ) := rfl

lemma int_land_negSucc_left (a b : ℕ) :
    Int.land (Int.negSucc a) (b : ℤ) = ((Nat.ldiff b a : ℕ) : ℤ) := rfl

lemma int_land_negSucc_negSucc (a b : ℕ) :
    Int.land (Int.negSucc a) (Int.negSucc b) = Int.negSucc (a ||| b) := rfl

lemma int_lor_ofNat (a b : ℕ) : Int.lor (a : ℤ) (b : ℤ) = ((a ||| b : ℕ) : ℤ) := rfl

lemma int_lor_cast_pow (a L : ℕ) :
    Int.lor (a : ℤ) ((2 : ℤ) ^ L) = ((a ||| 2 ^ L : ℕ) : ℤ) := by
  rw [show (2 : ℤ) ^ L = ((2 ^ L : ℕ) : ℤ) by push_cast; rfl]
  rfl

lemma ldiff_two_pow (a k : ℕ) :
    Nat.ldiff (2 ^ k) a = if a.testBit k then 0 else 2 ^ k := by
  rcases hb : a.testBit k with _ | _
  · rw [if_neg (by simp)]
    apply Nat.eq_of_testBit_eq
    intro i
    rw [Nat.testBit_ldiff]
    rcases eq_or_ne i k with rfl | hik
    · rw [Nat.testBit_two_pow_self, hb]
      rfl
    · rw [Nat.testBit_two_pow_of_ne (Ne.symm hik)]
      rfl
  · rw [if_pos rfl]
    apply Nat.eq_of_testBit_eq
    intro i
    rw [Nat.testBit_ldiff, Nat.zero_testBit]
    rcases eq_or_ne i k with rfl | hik
    · rw [Nat.testBit_two_pow_self, hb]
      rfl
    · rw [Nat.testBit_two_pow_of_ne (Ne.symm hik)]
      rfl

lemma ldiff_all_ones {w : ℕ} (hw : w < 2 ^ 63) : Nat.ldiff w (2 ^ 63 - 1) = 0 := by
  apply Nat.eq_of_testBit_eq
  intro i
  rw [Nat.testBit_ldiff, Nat.testBit_two_pow_sub_one, Nat.zero_testBit]
  by_cases hi : i < 63
  · simp [hi]
  · rw [Nat.testBit_lt_two_pow
      (lt_of_lt_of_le hw (Nat.pow_le_pow_right (by norm_num) (by omega)))]
    rfl

lemma testBit_63_of_ge {w : ℕ} (h1 : 2 ^ 63 ≤ w) (h2 : w < 2 ^ 64) :
    w.testBit 63 = true := by
  rw [Nat.testBit_to_div_mod]
  rw [show (2 : ℕ) ^ 63 = 9223372036854775808 by norm_num] at h1 ⊢
  rw [show (2 : ℕ) ^ 64 = 18446744073709551616 by norm_num] at h2
  simp only [decide_eq_true_eq]
  omega

/-- The mask test of `FromXYZ` on a wrapped 64-bit value is the bit test on
the unbounded value: for `w < 2^64` and `k ≤ 63`,
`wrap64 w & goMask k ≠ 0` iff bit `k` of `w` is set. -/
lemma decide_land_goMask {w : ℕ} (hw : w < 2 ^ 64) {k : ℕ} (hk : k ≤ 63) :
    decide (Int.land (wrap64 (w : ℤ)) (goMask k) ≠ 0) = w.testBit k := by
  rcases Nat.lt_or_ge w (2 ^ 63) with hw63 | hw63
  · rw [wrap64_of_lt hw63]
    rcases Nat.lt_or_ge k 63 with hk62 | hk63
    · rw [goMask_small (by omega),
        show (2 : ℤ) ^ k = ((2 ^ k : ℕ) : ℤ) by push_cast; rfl,
        int_land_ofNat, Nat.and_two_pow]
      rcases hb : w.testBit k with _ | _ <;> simp [hb]
    · have hk' : k = 63 := by omega
      subst hk'
      rw [goMask_63, int_land_negSucc_right, ldiff_all_ones hw63,
        Nat.testBit_lt_two_pow hw63]
      simp
  · rw [wrap64_of_ge hw63 hw]
    rcases Nat.lt_or_ge k 63 with hk62 | hk63
    · rw [goMask_small (by omega),
        show (2 : ℤ) ^ k = ((2 ^ k : ℕ) : ℤ) by push_cast; rfl,
        int_land_negSucc_left, ldiff_two_pow]
      have hsub : 2 ^ 64 - w - 1 = 2 ^ 64 - (w + 1) := by omega
      have htb : (2 ^ 64 - w - 1).testBit k = !w.testBit k := by
        rw [hsub, Nat.testBit_two_pow_sub_succ hw]
        simp [show k < 64 by omega]
      rw [htb]
      rcases hb : w.testBit k with _ | _ <;> simp [hb]
    · have hk' : k = 63 := by omega
      subst hk'
      rw [goMask_63, int_land_negSucc_negSucc, testBit_63_of_ge hw63 hw]
      simp

/-- On wrapped 64-bit arguments the source codec `FromXYZ` agrees with the
unbounded bit codec `fromXYZBits` up to zoom 64 (no probed mask wraps to
zero). -/
lemma FromXYZ_eq_bits (w v : ℕ) (hw : w < 2 ^ 64) (hv : v < 2 ^ 64) :
    ∀ n, n ≤ 64 →
      FromXYZ (wrap64 (w : ℤ)) (wrap64 (v : ℤ)) n = fromXYZBits (w : ℤ) (v : ℤ) n := by
  intro n
  induction n with
  | zero => intro _; rfl
  | succ z ih =>
    intro hn
    rw [FromXYZ, fromXYZBits, decide_land_goMask hw (by omega),
      decide_land_goMask hv (by omega), ih (by omega),
      intTestBit_natCast, intTestBit_natCast]

lemma FromXYZ_eq_bits_of_natCast (w v : ℕ) (hw : w < 2 ^ 63) (hv : v < 2 ^ 63)
    (n : ℕ) (hn : n ≤ 64) :
    FromXYZ (w : ℤ) (v : ℤ) n = fromXYZBits (w : ℤ) (v : ℤ) n := by
  have h := FromXYZ_eq_bits w v (lt_of_lt_of_le hw (by norm_num))
    (lt_of_lt_of_le hv (by norm_num)) n hn
  rw [wrap64_of_lt hw, wrap64_of_lt hv] at h
  exact h

/-- On keys of at most 63 digits no decode mask wraps, so the source decode
loop agrees with the unbounded one. -/
lemma xyzCore_eq_coreN (cs : List Char) (hlen : cs.length ≤ 63) :
    xyzCore cs = (xyzCoreN cs).map fun p => ((p.1 : ℤ), (p.2 : ℤ)) := by
  induction cs with
  | nil => rfl
  | cons c rest ih =>
    have hrest : rest.length ≤ 62 := by
      simp only [List.length_cons] at hlen
      omega
    rw [xyzCore, xyzCoreN, ih (by omega)]
    rcases hr : xyzCoreN rest with _ | ⟨xr, yr⟩
    · rfl
    · have hmask : goMask rest.length = ((2 ^ rest.length : ℕ) : ℤ) := by
        rw [goMask_small hrest]
        push_cast
        rfl
      simp only [Option.map_some]
      split_ifs <;>
        simp [hmask, int_lor_ofNat, int_lor_cast_pow]

lemma xyzCore_coe {key : QuadKey} {x y : ℕ} (hlen : key.length ≤ 63)
    (h : xyzCoreN key = some (x, y)) : xyzCore key = some ((x : ℤ), (y : ℤ)) := by
  rw [xyzCore_eq_coreN key hlen, h]
  rfl

/-- C1: the encode/decode round trip of the digit codec: for `1 ≤ z ≤ 20`
and `0 ≤ x, y < 2^z`, `XYZ (FromXYZ x y z) = (x, y, z)`.  In this range the
64-bit masks never wrap, so the wrapped codec coincides with the unbounded
one. -/
theorem c1_round_trip (x y : ℤ) (z : ℕ) (hz1 : 1 ≤ z) (hz2 : z ≤ 20)
    (hx0 : 0 ≤ x) (hx : x < 2 ^ z) (hy0 : 0 ≤ y) (hy : y < 2 ^ z) :
    XYZ (FromXYZ x y z) = (x, y, (z : ℤ)) := by
  lift x to ℕ using hx0 with n
  lift y to ℕ using hy0 with m
  have hn : n < 2 ^ z := by exact_mod_cast hx
  have hm : m < 2 ^ z := by exact_mod_cast hy
  have hn63 : n < 2 ^ 63 :=
    lt_of_lt_of_le hn (Nat.pow_le_pow_right (by norm_num) (by omega))
  have hm63 : m < 2 ^ 63 :=
    lt_of_lt_of_le hm (Nat.pow_le_pow_right (by norm_num) (by omega))
  rw [FromXYZ_eq_bits_of_natCast n m hn63 hm63 z (by omega)]
  rw [XYZ, fromXYZBits_valid _ _ _ hz1,
    xyzCore_eq_coreN _ (by rw [fromXYZBits_length]; omega),
    xyzCoreN_fromXYZBits, Nat.mod_eq_of_lt hn, Nat.mod_eq_of_lt hm,
    fromXYZBits_length]
  rfl

/-- Witness for C1 at the spec's concrete scenario `(215, 100, 8)`. -/
theorem c1_round_trip_witness : XYZ (FromXYZ 215 100 8) = (215, 100, 8) :=
  c1_round_trip 215 100 8 (by decide) (by decide) (by decide) (by decide)
    (by decide) (by decide)

lemma testBit_lor_two_pow_self (a L : ℕ) : (a ||| 2 ^ L).testBit L = true := by
  rw [Nat.testBit_lor, Nat.testBit_two_pow_self, Bool.or_true]

lemma testBit_lor_two_pow_lt {a L i : ℕ} (hi : i < L) :
    (a ||| 2 ^ L).testBit i = a.testBit i := by
  rw [Nat.testBit_lor, Nat.testBit_two_pow_of_ne (by omega), Bool.or_false]

lemma fromXYZBits_congr (z : ℕ) (x x2 y y2 : ℤ)
    (hx : ∀ i < z, x.testBit i = x2.testBit i)
    (hy : ∀ i < z, y.testBit i = y2.testBit i) :
    fromXYZBits x y z = fromXYZBits x2 y2 z := by
  induction z with
  | zero => rfl
  | succ n ih =>
    rw [fromXYZBits, fromXYZBits, hx n (by omega), hy n (by omega),
      ih (fun i hi => hx i (by omega)) (fun i hi => hy i (by omega))]

lemma fromXYZBits_xyzCoreN (cs : List Char)
    (hdig : ∀ c ∈ cs, c = '0' ∨ c = '1' ∨ c = '2' ∨ c = '3') :
    ∀ x y : ℕ, xyzCoreN cs = some (x, y) →
      fromXYZBits (x : ℤ) (y : ℤ) cs.length = cs := by
  induction cs with
  | nil => intro x y _; rfl
  | cons c rest ih =>
    intro x y h
    rw [xyzCoreN] at h
    rcases hr : xyzCoreN rest with _ | p
    · rw [hr] at h; exact absurd h (by simp)
    rw [hr] at h
    obtain ⟨xr, yr⟩ := p
    obtain ⟨hxr, hyr⟩ := xyzCoreN_lt rest xr yr hr
    have hrest : fromXYZBits (xr : ℤ) (yr : ℤ) rest.length = rest :=
      ih (fun d hd => hdig d (List.mem_cons_of_mem c hd)) xr yr hr
    have hcongr : ∀ a b : ℕ, a < 2 ^ rest.length →
        fromXYZBits ((a ||| 2 ^ rest.length : ℕ) : ℤ) (b : ℤ) rest.length =
          fromXYZBits (a : ℤ) (b : ℤ) rest.length := by
      intro a b ha
      refine fromXYZBits_congr _ _ _ _ _ (fun i hi => ?_) (fun i _ => rfl)
      rw [intTestBit_natCast, intTestBit_natCast, testBit_lor_two_pow_lt hi]
    have hswap : ∀ a b : ℕ, b < 2 ^ rest.length →
        fromXYZBits (a : ℤ) ((b ||| 2 ^ rest.length : ℕ) : ℤ) rest.length =
          fromXYZBits (a : ℤ) (b : ℤ) rest.length := by
      intro a b hb
      refine fromXYZBits_congr _ _ _ _ _ (fun i _ => rfl) (fun i hi => ?_)
      rw [intTestBit_natCast, intTestBit_natCast, testBit_lor_two_pow_lt hi]
    have hlow : ∀ a : ℕ, a < 2 ^ rest.length →
        Int.testBit (a : ℤ) rest.length = false := by
      intro a ha
      rw [intTestBit_natCast]
      exact Nat.testBit_lt_two_pow ha
    have hhigh : ∀ a : ℕ,
        Int.testBit ((a ||| 2 ^ rest.length : ℕ) : ℤ) rest.length = true := by
      intro a
      rw [intTestBit_natCast]
      exact testBit_lor_two_pow_self a rest.length
    split_ifs at h with h0 h1 h2 h3
    · simp only [Option.some.injEq, Prod.mk.injEq] at h
      obtain ⟨rfl, rfl⟩ := h
      rw [List.length_cons, fromXYZBits, hlow _ hxr, hlow _ hyr, hrest]
      simp [digitChar, h0]
    · simp only [Option.some.injEq, Prod.mk.injEq] at h
      obtain ⟨rfl, rfl⟩ := h
      rw [List.length_cons, fromXYZBits, hhigh, hlow _ hyr, hcongr _ _ hxr, hrest]
      simp [digitChar, h1]
    · simp only [Option.some.injEq, Prod.mk.injEq] at h
      obtain ⟨rfl, rfl⟩ := h
      rw [List.length_cons, fromXYZBits, hlow _ hxr, hhigh, hswap _ _ hyr, hrest]
      simp [digitChar, h2]
    · simp only [Option.some.injEq, Prod.mk.injEq] at h
      obtain ⟨rfl, rfl⟩ := h
      rw [List.length_cons, fromXYZBits, hhigh, hhigh, hcongr _ _ hxr,
        hswap _ _ hyr, hrest]
      simp [digitChar, h3]

lemma xyzCoreN_isSome_of_digits (cs : List Char)
    (hdig : ∀ c ∈ cs, c = '0' ∨ c = '1' ∨ c = '2' ∨ c = '3') :
    ∃ p : ℕ × ℕ, xyzCoreN cs = some p := by
  induction cs with
  | nil => exact ⟨(0, 0), rfl⟩
  | cons c rest ih =>
    obtain ⟨⟨xr, yr⟩, hr⟩ := ih fun d hd => hdig d (List.mem_cons_of_mem c hd)
    rcases hdig c (List.mem_cons_self c rest) with hc | hc | hc | hc
    · exact ⟨(xr, yr), by rw [xyzCoreN, hr]; simp [hc]⟩
    · exact ⟨(xr ||| 2 ^ rest.length, yr), by rw [xyzCoreN, hr]; simp [hc]⟩
    · exact ⟨(xr, yr ||| 2 ^ rest.length), by rw [xyzCoreN, hr]; simp [hc]⟩
    · exact ⟨(xr ||| 2 ^ rest.length, yr ||| 2 ^ rest.length), by
        rw [xyzCoreN, hr]; simp [hc]⟩

lemma xyzCore_isSome_of_digits (cs : List Char)
    (hdig : ∀ c ∈ cs, c = '0' ∨ c = '1' ∨ c = '2' ∨ c = '3') :
    ∃ p : ℤ × ℤ, xyzCore cs = some p := by
  induction cs with
  | nil => exact ⟨(0, 0), rfl⟩
  | cons c rest ih =>
    obtain ⟨⟨xr, yr⟩, hr⟩ := ih fun d hd => hdig d (List.mem_cons_of_mem c hd)
    rcases hdig c (List.mem_cons_self c rest) with hc | hc | hc | hc
    · exact ⟨(xr, yr), by rw [xyzCore, hr]; simp [hc]⟩
    · exact ⟨(Int.lor xr (goMask rest.length), yr), by rw [xyzCore, hr]; simp [hc]⟩
    · exact ⟨(xr, Int.lor yr (goMask rest.length)), by rw [xyzCore, hr]; simp [hc]⟩
    · exact ⟨(Int.lor xr (goMask rest.length), Int.lor yr (goMask rest.length)), by
        rw [xyzCore, hr]; simp [hc]⟩

lemma XYZ_eq_of_valid {key : QuadKey} {x y : ℤ} (hv : Valid key = none)
    (h : xyzCore key = some (x, y)) :
    XYZ key = (x, y, (key.length : ℤ)) := by
  simp only [XYZ, hv, h]

lemma encode_decodeN {key : QuadKey} {x y : ℕ} (hv : Valid key = none)
    (h : xyzCoreN key = some (x, y)) :
    fromXYZBits (x : ℤ) (y : ℤ) key.length = key :=
  fromXYZBits_xyzCoreN key ((Valid_eq_none_iff key).mp hv).2 x y h

lemma fromXYZ_child (x y : ℕ) (dx dy : Bool) :
    ∀ L, fromXYZBits ((2 * x + dx.toNat : ℕ) : ℤ) ((2 * y + dy.toNat : ℕ) : ℤ)
      (L + 1) = fromXYZBits (x : ℤ) (y : ℤ) L ++ [digitChar dx dy] := by
  intro L
  induction L with
  | zero =>
    have hx0 : (2 * x + dx.toNat) % 2 = dx.toNat := by cases dx <;> simp <;> omega
    have hy0 : (2 * y + dy.toNat) % 2 = dy.toNat := by cases dy <;> simp <;> omega
    rw [fromXYZBits, fromXYZBits, intTestBit_natCast, intTestBit_natCast]
    simp only [Nat.testBit_zero, hx0, hy0]
    cases dx <;> cases dy <;> simp [fromXYZBits]
  | succ L ih =>
    have hxs : Int.testBit ((2 * x + dx.toNat : ℕ) : ℤ) (L + 1) =
        Int.testBit (x : ℤ) L := by
      rw [intTestBit_natCast, intTestBit_natCast, Nat.testBit_add_one]
      congr 1
      cases dx <;> simp <;> omega
    have hys : Int.testBit ((2 * y + dy.toNat : ℕ) : ℤ) (L + 1) =
        Int.testBit (y : ℤ) L := by
      rw [intTestBit_natCast, intTestBit_natCast, Nat.testBit_add_one]
      congr 1
      cases dy <;> simp <;> omega
    rw [fromXYZBits, hxs, hys, ih]
    rw [show fromXYZBits (x : ℤ) (y : ℤ) (L + 1) =
      digitChar (Int.testBit (x : ℤ) L) (Int.testBit (y : ℤ) L) ::
        fromXYZBits (x : ℤ) (y : ℤ) L from rfl]
    simp

lemma wrap64_two_mul_add (x : ℕ) (hx : x < 2 ^ 63) (d : ℕ) (hd : d ≤ 1) :
    wrap64 (2 * (x : ℤ)) + (d : ℤ) = wrap64 ((2 * x + d : ℕ) : ℤ) := by
  unfold wrap64
  have hx' : (x : ℤ) < 9223372036854775808 := by
    rw [show (9223372036854775808 : ℤ) = (2 : ℤ) ^ 63 by norm_num]
    exact_mod_cast lt_of_lt_of_le hx (by norm_num)
  push_cast
  omega

/-- C2 (amended): for every valid key of at most 63 digits, `Children`
returns exactly the four keys formed by appending the digits
`'0','1','2','3'` in that order; for every invalid key it returns the empty
list.  At 64 digits the claim fails: the mask `1 << 63` of Go's 64-bit `int`
wraps to a negative value, a key with leading digit `'1'`, `'2'` or `'3'`
decodes to a negative coordinate, and the negative-coordinate guard returns
the empty list — see the counterexample. -/
theorem c2_children (key : QuadKey) :
    (Valid key = none → key.length ≤ 63 →
      Children key = [key ++ ['0'], key ++ ['1'], key ++ ['2'], key ++ ['3']]) ∧
    (Valid key ≠ none → Children key = []) := by
  constructor
  · intro hv hlen
    obtain ⟨⟨x, y⟩, hcoreN⟩ :=
      xyzCoreN_isSome_of_digits key ((Valid_eq_none_iff key).mp hv).2
    have hcore : xyzCore key = some ((x : ℤ), (y : ℤ)) := xyzCore_coe hlen hcoreN
    obtain ⟨hxlt, hylt⟩ := xyzCoreN_lt key x y hcoreN
    have hx63 : x < 2 ^ 63 :=
      lt_of_lt_of_le hxlt (Nat.pow_le_pow_right (by norm_num) hlen)
    have hy63 : y < 2 ^ 63 :=
      lt_of_lt_of_le hylt (Nat.pow_le_pow_right (by norm_num) hlen)
    have hxyz := XYZ_eq_of_valid hv hcore
    have hguard : ¬((XYZ key).1 < 0 ∨ (XYZ key).2.1 < 0 ∨ (XYZ key).2.2 < 0) := by
      rw [hxyz]
      simp
    have htn : (XYZ key).2.2.toNat = key.length := by rw [hxyz]; simp
    have hch : ∀ dx dy : Bool,
        FromXYZ (wrap64 (2 * (XYZ key).1) + dx.toNat)
          (wrap64 (2 * (XYZ key).2.1) + dy.toNat) (key.length + 1) =
          key ++ [digitChar dx dy] := by
      intro dx dy
      have hxcast : wrap64 (2 * (XYZ key).1) + (dx.toNat : ℤ) =
          wrap64 ((2 * x + dx.toNat : ℕ) : ℤ) := by
        rw [hxyz]
        exact wrap64_two_mul_add x hx63 dx.toNat (by cases dx <;> simp)
      have hycast : wrap64 (2 * (XYZ key).2.1) + (dy.toNat : ℤ) =
          wrap64 ((2 * y + dy.toNat : ℕ) : ℤ) := by
        rw [hxyz]
        exact wrap64_two_mul_add y hy63 dy.toNat (by cases dy <;> simp)
      rw [hxcast, hycast,
        FromXYZ_eq_bits (2 * x + dx.toNat) (2 * y + dy.toNat)
          (by cases dx <;> simp <;> omega) (by cases dy <;> simp <;> omega)
          (key.length + 1) (by omega),
        fromXYZ_child, encode_decodeN hv hcoreN]
    simp only [Children, hv]
    rw [if_neg hguard, htn]
    have h0 := hch false false
    have h1 := hch true false
    have h2 := hch false true
    have h3 := hch true true
    simp only [Bool.toNat_false, Bool.toNat_true, Int.Nat.cast_ofNat_Int,
      add_zero, digitChar] at h0 h1 h2 h3
    rw [h0, h1, h2, h3]
  · intro hv
    obtain ⟨e, he⟩ := Option.ne_none_iff_exists'.mp hv
    simp only [Children, he]

/-- Witness for C2 at the spec's concrete scenario: the children of `"12"`
are `"120", "121", "122", "123"`. -/
theorem c2_children_witness :
    Children ['1', '2'] =
      [['1', '2', '0'], ['1', '2', '1'], ['1', '2', '2'], ['1', '2', '3']] :=
  (c2_children ['1', '2']).1 (by decide) (by decide)

lemma nat_ldiff_zero (b : ℕ) : Nat.ldiff b 0 = b := by
  apply Nat.eq_of_testBit_eq
  intro i
  rw [Nat.testBit_ldiff, Nat.zero_testBit]
  simp

lemma int_lor_zero_negSucc (b : ℕ) :
    Int.lor 0 (Int.negSucc b) = Int.negSucc b := by
  rw [show Int.lor 0 (Int.negSucc b) = Int.negSucc (Nat.ldiff b 0) from rfl,
    nat_ldiff_zero]

lemma xyzCore_replicate_zero (n : ℕ) :
    xyzCore (List.replicate n '0') = some (0, 0) := by
  induction n with
  | zero => rfl
  | succ m ih =>
    rw [List.replicate_succ, xyzCore, ih]
    simp

lemma valid_k64 : Valid ('1' :: List.replicate 63 '0') = none := by decide

lemma xyzCore_k64 :
    xyzCore ('1' :: List.replicate 63 '0') = some (Int.negSucc (2 ^ 63 - 1), 0) := by
  rw [xyzCore, xyzCore_replicate_zero]
  simp only [List.length_replicate]
  rw [if_pos trivial, goMask_63, int_lor_zero_negSucc]
  rw [if_neg (by decide)]

lemma xyz_k64 :
    XYZ ('1' :: List.replicate 63 '0') = (Int.negSucc (2 ^ 63 - 1), 0, 64) := by
  rw [XYZ, valid_k64, xyzCore_k64]
  simp

/-- C2 counterexample: the 64-digit key `"1" ++ "0"*63` is valid, yet
`Children` returns the empty list, not four children: its decoded `x` is the
wrapped mask `1 << 63 = -2^63`, so the negative-coordinate guard fires. -/
theorem c2_counterexample :
    Valid ('1' :: List.replicate 63 '0') = none ∧
    ('1' :: List.replicate 63 '0').length = 64 ∧
    Children ('1' :: List.replicate 63 '0') = [] := by
  refine ⟨valid_k64, by simp, ?_⟩
  simp only [Children, valid_k64, xyz_k64]
  rw [if_pos (Or.inl (Int.negSucc_lt_zero _))]

/-- C3: `Parent` removes the last character of a valid key of length at
least 2; it fails with the root error on a valid key of length 1; and it
fails with the invalid-key error produced by `Valid` on an invalid key. -/
theorem c3_parent (key : QuadKey) :
    (Valid key = none → 2 ≤ key.length →
      Parent key = Except.ok key.dropLast) ∧
    (Valid key = none → key.length = 1 →
      Parent key = Except.error GoErr.rootKey) ∧
    (∀ e, Valid key = some e → Parent key = Except.error e ∧ e ≠ GoErr.rootKey) := by
  refine ⟨?_, ?_, ?_⟩
  · intro hv hlen
    simp only [Parent, hv]
    rw [if_neg (by omega), List.dropLast_eq_take]
  · intro hv hlen
    simp only [Parent, hv]
    rw [if_pos hlen]
  · intro e he
    exact ⟨by simp only [Parent, he], Valid_ne_rootKey he⟩

/-- Witness for C3 at the spec's concrete scenario: the parent of `"0123"`
is `"012"`. -/
theorem c3_parent_witness :
    Parent ['0', '1', '2', '3'] = Except.ok ['0', '1', '2'] :=
  (c3_parent ['0', '1', '2', '3']).1 (by decide) (by decide)

/-- C4 (amended): a string is valid iff non-empty with all characters in
`'0'..'3'`; `XYZ` returns the sentinel `(-1,-1,-1)` exactly when `Valid`
fails; a valid string decodes with `z` equal to its length, and — when it
has at most 63 digits, so that no mask wraps — to non-negative coordinates;
conversely, non-negative coordinates with `z` the length only arise on valid
strings.  At 64 digits the non-negativity direction fails: the mask
`1 << 63` wraps to `-2^63` — see the counterexample. -/
theorem c4_validity_partition (s : QuadKey) :
    (Valid s = none ↔ s ≠ [] ∧ ∀ c ∈ s, c = '0' ∨ c = '1' ∨ c = '2' ∨ c = '3') ∧
    (XYZ s = (-1, -1, -1) ↔ Valid s ≠ none) ∧
    (Valid s = none → (XYZ s).2.2 = (s.length : ℤ)) ∧
    (Valid s = none → s.length ≤ 63 →
      0 ≤ (XYZ s).1 ∧ 0 ≤ (XYZ s).2.1 ∧ (XYZ s).2.2 = (s.length : ℤ)) ∧
    ((0 ≤ (XYZ s).1 ∧ 0 ≤ (XYZ s).2.1 ∧ (XYZ s).2.2 = (s.length : ℤ)) →
      Valid s = none) := by
  refine ⟨Valid_eq_none_iff s, ?_, ?_, ?_, ?_⟩
  · by_cases hv : Valid s = none
    · obtain ⟨⟨x, y⟩, hcore⟩ :=
        xyzCore_isSome_of_digits s ((Valid_eq_none_iff s).mp hv).2
      rw [XYZ_eq_of_valid hv hcore]
      have hne : s ≠ [] := ((Valid_eq_none_iff s).mp hv).1
      have hlen : 0 < s.length := List.length_pos.mpr hne
      constructor
      · intro h
        rw [Prod.mk.injEq, Prod.mk.injEq] at h
        have := h.2.2
        omega
      · intro h
        exact absurd hv h
    · obtain ⟨e, he⟩ := Option.ne_none_iff_exists'.mp hv
      simp only [XYZ, he]
      simp [hv]
  · intro hv
    obtain ⟨⟨x, y⟩, hcore⟩ :=
      xyzCore_isSome_of_digits s ((Valid_eq_none_iff s).mp hv).2
    rw [XYZ_eq_of_valid hv hcore]
  · intro hv hlen
    obtain ⟨⟨x, y⟩, hcoreN⟩ :=
      xyzCoreN_isSome_of_digits s ((Valid_eq_none_iff s).mp hv).2
    rw [XYZ_eq_of_valid hv (xyzCore_coe hlen hcoreN)]
    refine ⟨by positivity, by positivity, rfl⟩
  · intro h
    by_cases hv : Valid s = none
    · exact hv
    · obtain ⟨e, he⟩ := Option.ne_none_iff_exists'.mp hv
      rw [show XYZ s = (-1, -1, -1) by simp only [XYZ, he]] at h
      exact absurd h.1 (by norm_num)

/-- Witness for C4: `"13"` is valid with at most 63 digits, decodes to
non-negative coordinates, and non-negative coordinates certify validity. -/
theorem c4_validity_partition_witness :
    0 ≤ (XYZ ['1', '3']).1 ∧ Valid ['1', '3'] = none :=
  ⟨((c4_validity_partition ['1', '3']).2.2.2.1 (by decide) (by decide)).1,
    (c4_validity_partition ['1', '3']).2.2.2.2 (by decide)⟩

/-- C4 counterexample: the 64-digit key `"1" ++ "0"*63` is valid, yet its
decoded `x` coordinate is the wrapped negative value `-2^63`, refuting the
claim that every valid string decodes to non-negative coordinates. -/
theorem c4_counterexample :
    Valid ('1' :: List.replicate 63 '0') = none ∧
    (XYZ ('1' :: List.replicate 63 '0')).1 = -9223372036854775808 := by
  refine ⟨valid_k64, ?_⟩
  rw [xyz_k64]
  decide

/-- C10: zoom 0 is not representable at the public interface: `FromXYZ`
at zoom 0 is the empty string for all integers, hence `FromLonLat` at
zoom 0 is the empty string for all coordinates; the empty string is
rejected by `Valid` and decoded to the sentinel by `XYZ`. -/
theorem c10_zoom_zero :
    (∀ x y : ℤ, FromXYZ x y 0 = []) ∧
    (∀ lon lat : ℝ, FromLonLat lon lat 0 = []) ∧
    Valid [] = some GoErr.emptyKey ∧ XYZ [] = (-1, -1, -1) :=
  ⟨fun _ _ => rfl, fun _ _ => rfl, rfl, rfl⟩

/-- C9: `Bound` fails closed, returning the zero rectangle `orb.Bound{}` on
every invalid key instead of an error. -/
theorem c9_bound_fails_closed (key : QuadKey) (h : Valid key ≠ none) :
    Bound key = ⟨0, 0, 0, 0⟩ := by
  obtain ⟨e, he⟩ := Option.ne_none_iff_exists'.mp h
  simp only [Bound, he]

/-- Witness for C9 at the invalid key `"01a3"` used by the tests. -/
theorem c9_bound_fails_closed_witness :
    Bound ['0', '1', 'a', '3'] = ⟨0, 0, 0, 0⟩ :=
  c9_bound_fails_closed ['0', '1', 'a', '3'] (by decide)

/-! ## Lemmas about `normalize` -/

lemma trunc_eq_zero {r : ℝ} (h1 : -1 < r) (h2 : r < 1) : trunc r = 0 := by
  unfold trunc
  split_ifs with h
  · exact Int.floor_eq_zero_iff.mpr ⟨h, h2⟩
  · exact Int.ceil_eq_zero_iff.mpr ⟨h1, le_of_not_le h⟩

lemma goMod_bounds (x : ℝ) : -360 < goMod x 360 ∧ goMod x 360 < 360 := by
  have h360 : (0 : ℝ) < 360 := by norm_num
  have hx : 360 * (x / 360) = x := by field_simp
  unfold goMod trunc
  split_ifs with h
  · have h1 := Int.floor_le (x / 360)
    have h2 := Int.lt_floor_add_one (x / 360)
    have h1m : 360 * ((⌊x / 360⌋ : ℤ) : ℝ) ≤ 360 * (x / 360) :=
      mul_le_mul_of_nonneg_left h1 (by norm_num)
    have h2m : 360 * (x / 360) < 360 * (((⌊x / 360⌋ : ℤ) : ℝ) + 1) :=
      (mul_lt_mul_left h360).mpr h2
    rw [hx] at h1m h2m
    constructor <;> nlinarith
  · have h1 := Int.le_ceil (x / 360)
    have h2 := Int.ceil_lt_add_one (x / 360)
    have h1m : 360 * (x / 360) ≤ 360 * ((⌈x / 360⌉ : ℤ) : ℝ) :=
      mul_le_mul_of_nonneg_left h1 (by norm_num)
    have h2m : 360 * ((⌈x / 360⌉ : ℤ) : ℝ) < 360 * (x / 360 + 1) :=
      (mul_lt_mul_left h360).mpr h2
    rw [hx] at h1m
    constructor <;> nlinarith

lemma goMod_eq_self {x : ℝ} (h1 : -360 < x) (h2 : x < 360) : goMod x 360 = x := by
  have ht : trunc (x / 360) = 0 := by
    apply trunc_eq_zero
    · rw [lt_div_iff (by norm_num : (0 : ℝ) < 360)]
      linarith
    · rw [div_lt_one (by norm_num)]
      exact h2
  rw [goMod, ht]
  simp

lemma normalize_lon_mem (lon lat : ℝ) :
    -180 < (normalize lon lat).1 ∧ (normalize lon lat).1 ≤ 180 := by
  obtain ⟨hgt, hlt⟩ := goMod_bounds lon
  unfold normalize
  dsimp only
  split_ifs with h1 h2
  · constructor <;> linarith
  · constructor <;> linarith
  · constructor <;> linarith

lemma normalize_lon_eq_self {lon : ℝ} (lat : ℝ) (h1 : -180 < lon) (h2 : lon ≤ 180) :
    (normalize lon lat).1 = lon := by
  unfold normalize
  dsimp only
  rw [goMod_eq_self (by linarith) (by linarith), if_neg (by linarith),
    if_neg (by linarith)]

lemma normalize_lat_mem (lon lat : ℝ) :
    -MERCATOR_MAX_LAT ≤ (normalize lon lat).2 ∧
      (normalize lon lat).2 ≤ MERCATOR_MAX_LAT := by
  have hML : (0 : ℝ) < MERCATOR_MAX_LAT := by norm_num [MERCATOR_MAX_LAT]
  unfold normalize
  dsimp only
  split_ifs with h1 h2 <;> constructor <;> linarith

lemma normalize_lat_eq_self (lon : ℝ) {lat : ℝ} (h1 : -MERCATOR_MAX_LAT ≤ lat)
    (h2 : lat ≤ MERCATOR_MAX_LAT) : (normalize lon lat).2 = lat := by
  unfold normalize
  dsimp only
  rw [if_neg (by linarith), if_neg (by linarith)]

/-- C8: `normalize` puts the longitude in `(-180, 180]`, keeps `+180` at
exactly `+180`, clamps the latitude into `[-85.05112878, 85.05112878]` and
leaves a latitude already in that interval unchanged. -/
theorem c8_normalize (lon lat : ℝ) :
    (-180 < (normalize lon lat).1 ∧ (normalize lon lat).1 ≤ 180) ∧
    (normalize 180 lat).1 = 180 ∧
    (-MERCATOR_MAX_LAT ≤ (normalize lon lat).2 ∧
      (normalize lon lat).2 ≤ MERCATOR_MAX_LAT) ∧
    (-MERCATOR_MAX_LAT ≤ lat → lat ≤ MERCATOR_MAX_LAT →
      (normalize lon lat).2 = lat) :=
  ⟨normalize_lon_mem lon lat,
    normalize_lon_eq_self lat (by norm_num) (by norm_num),
    normalize_lat_mem lon lat,
    fun h1 h2 => normalize_lat_eq_self lon h1 h2⟩

/-- Witness for C8 at `lon = 540`, `lat = 42`. -/
theorem c8_normalize_witness :
    (normalize 540 42).1 ≤ 180 ∧ (normalize 540 42).2 = 42 :=
  ⟨(c8_normalize 540 42).1.2,
    (c8_normalize 540 42).2.2.2 (by norm_num [MERCATOR_MAX_LAT])
      (by norm_num [MERCATOR_MAX_LAT])⟩

/-! ## Lemmas about `KeysInBound` -/

lemma keysInBound_eval (na : ℝ → ℝ → ℝ) (b : GoBound) (zoom : ℕ)
    (west south east north : ℝ)
    (hws : normalize b.left b.bottom = (west, south))
    (hen : normalize b.right b.top = (east, north))
    (eastIn southIn : ℝ)
    (hei : eastIn = if east = west then east else na east west)
    (hsi : southIn = if south = north then south else na south north)
    (x1 x2 y1 y2 : ℤ)
    (hx1 : toX west zoom = x1) (hx2 : toX eastIn zoom = x2)
    (hy1 : toY north zoom = y1) (hy2 : toY southIn zoom = y2) :
    KeysInBound na b zoom =
      if max x1 x2 < min x1 x2 ∨ max y1 y2 < min y1 y2 then []
      else
        (List.range (max x1 x2 - min x1 x2 + 1).toNat).flatMap fun (i : ℕ) =>
          (List.range (max y1 y2 - min y1 y2 + 1).toNat).map fun (j : ℕ) =>
            FromXYZ (min x1 x2 + (i : ℤ)) (min y1 y2 + (j : ℤ)) zoom := by
  unfold KeysInBound
  rw [hws, hen]
  dsimp only
  rw [← hei, ← hsi, hx1, hx2, hy1, hy2]

lemma grid_flatMap_ne_nil (x1 x2 y1 y2 : ℤ) (zoom : ℕ) :
    ((List.range (max x1 x2 - min x1 x2 + 1).toNat).flatMap fun (i : ℕ) =>
      (List.range (max y1 y2 - min y1 y2 + 1).toNat).map fun (j : ℕ) =>
        FromXYZ (min x1 x2 + (i : ℤ)) (min y1 y2 + (j : ℤ)) zoom) ≠ [] := by
  intro hnil
  have h0x : (0 : ℕ) < (max x1 x2 - min x1 x2 + 1).toNat := by
    have := min_le_max (a := x1) (b := x2)
    omega
  have h0y : (0 : ℕ) < (max y1 y2 - min y1 y2 + 1).toNat := by
    have := min_le_max (a := y1) (b := y2)
    omega
  have hmem : FromXYZ (min x1 x2 + ((0 : ℕ) : ℤ)) (min y1 y2 + ((0 : ℕ) : ℤ)) zoom ∈
      (List.range (max x1 x2 - min x1 x2 + 1).toNat).flatMap fun (i : ℕ) =>
        (List.range (max y1 y2 - min y1 y2 + 1).toNat).map fun (j : ℕ) =>
          FromXYZ (min x1 x2 + (i : ℤ)) (min y1 y2 + (j : ℤ)) zoom := by
    rw [List.mem_flatMap]
    refine ⟨0, List.mem_range.mpr h0x, ?_⟩
    rw [List.mem_map]
    exact ⟨0, List.mem_range.mpr h0y, rfl⟩
  rw [hnil] at hmem
  exact absurd hmem (List.not_mem_nil _)

lemma keysInBound_ne_nil (na : ℝ → ℝ → ℝ) (b : GoBound) (zoom : ℕ) :
    KeysInBound na b zoom ≠ [] := by
  unfold KeysInBound
  rw [if_neg (by push_neg; exact ⟨min_le_max, min_le_max⟩)]
  exact grid_flatMap_ne_nil _ _ _ _ _

lemma normalize_zero_zero : normalize 0 0 = (0, 0) :=
  Prod.ext (normalize_lon_eq_self 0 (by norm_num) (by norm_num))
    (normalize_lat_eq_self 0 (by norm_num [MERCATOR_MAX_LAT])
      (by norm_num [MERCATOR_MAX_LAT]))

lemma toX_zero_one : toX 0 1 = 1 := by
  rw [toX, show ((0 : ℝ) + 180) / 360 * (2 : ℝ) ^ (1 : ℕ) = 1 by norm_num]
  norm_num

lemma toY_zero_one : toY 0 1 = 1 := by
  rw [toY]
  rw [show (0 : ℝ) * π / 180 = 0 by ring, Real.tan_zero, Real.cos_zero]
  norm_num [Real.log_one]

lemma keysInBound_b0_eval : KeysInBound naModel ⟨0, 0, 0, 0⟩ 1 = [['3']] := by
  rw [keysInBound_eval naModel ⟨0, 0, 0, 0⟩ 1 0 0 0 0 normalize_zero_zero
    normalize_zero_zero 0 0 (by rw [if_pos rfl]) (by rw [if_pos rfl]) 1 1 1 1
    toX_zero_one toX_zero_one toY_zero_one toY_zero_one]
  decide

/-- C5 amended: a degenerate box never yields the empty list.  `KeysInBound`
never returns `[]` at all (the swap step makes both grid ranges non-empty);
when the normalized west and east edges coincide every returned key lies in
the single column of that shared edge; when the normalized south and north
edges coincide every returned key lies in the single row of that shared
edge; and a box degenerate in both axes yields exactly the one tile
containing its corner point. -/
theorem c5_amended :
    (∀ (na : ℝ → ℝ → ℝ) (b : GoBound) (zoom : ℕ), KeysInBound na b zoom ≠ []) ∧
    (∀ (na : ℝ → ℝ → ℝ) (b : GoBound) (zoom : ℕ),
      (normalize b.left b.bottom).1 = (normalize b.right b.top).1 →
      ∀ q ∈ KeysInBound na b zoom, ∃ j : ℤ,
        q = FromXYZ (toX (normalize b.left b.bottom).1 zoom) j zoom) ∧
    (∀ (na : ℝ → ℝ → ℝ) (b : GoBound) (zoom : ℕ),
      (normalize b.left b.bottom).2 = (normalize b.right b.top).2 →
      ∀ q ∈ KeysInBound na b zoom, ∃ i : ℤ,
        q = FromXYZ i (toY (normalize b.right b.top).2 zoom) zoom) ∧
    (∀ (na : ℝ → ℝ → ℝ) (b : GoBound) (zoom : ℕ),
      (normalize b.left b.bottom).1 = (normalize b.right b.top).1 →
      (normalize b.left b.bottom).2 = (normalize b.right b.top).2 →
      KeysInBound na b zoom =
        [FromXYZ (toX (normalize b.left b.bottom).1 zoom)
          (toY (normalize b.left b.bottom).2 zoom) zoom]) := by
  refine ⟨keysInBound_ne_nil, ?_, ?_, ?_⟩
  · intro na b zoom hw q hq
    rw [keysInBound_eval na b zoom (normalize b.left b.bottom).1
      (normalize b.left b.bottom).2 (normalize b.left b.bottom).1
      (normalize b.right b.top).2 rfl (Prod.ext hw.symm rfl)
      (normalize b.left b.bottom).1
      (if (normalize b.left b.bottom).2 = (normalize b.right b.top).2
        then (normalize b.left b.bottom).2
        else na (normalize b.left b.bottom).2 (normalize b.right b.top).2)
      (by rw [if_pos rfl]) rfl
      (toX (normalize b.left b.bottom).1 zoom)
      (toX (normalize b.left b.bottom).1 zoom)
      (toY (normalize b.right b.top).2 zoom)
      (toY (if (normalize b.left b.bottom).2 = (normalize b.right b.top).2
        then (normalize b.left b.bottom).2
        else na (normalize b.left b.bottom).2 (normalize b.right b.top).2) zoom)
      rfl rfl rfl rfl] at hq
    rw [max_self, min_self] at hq
    rw [if_neg (by push_neg; exact ⟨le_rfl, min_le_max⟩)] at hq
    rw [sub_self, zero_add, Int.toNat_one] at hq
    rw [List.mem_flatMap] at hq
    obtain ⟨i, hi, hq2⟩ := hq
    rw [List.mem_range] at hi
    have hi0 : i = 0 := by omega
    subst hi0
    rw [List.mem_map] at hq2
    obtain ⟨j, _, hqe⟩ := hq2
    refine ⟨min (toY (normalize b.right b.top).2 zoom)
      (toY (if (normalize b.left b.bottom).2 = (normalize b.right b.top).2
        then (normalize b.left b.bottom).2
        else na (normalize b.left b.bottom).2 (normalize b.right b.top).2) zoom) +
      (j : ℤ), ?_⟩
    rw [← hqe]
    norm_num
  · intro na b zoom hs q hq
    rw [keysInBound_eval na b zoom (normalize b.left b.bottom).1
      (normalize b.left b.bottom).2 (normalize b.right b.top).1
      (normalize b.right b.top).2 rfl rfl
      (if (normalize b.right b.top).1 = (normalize b.left b.bottom).1
        then (normalize b.right b.top).1
        else na (normalize b.right b.top).1 (normalize b.left b.bottom).1)
      (normalize b.left b.bottom).2
      rfl (by rw [if_pos hs])
      (toX (normalize b.left b.bottom).1 zoom)
      (toX (if (normalize b.right b.top).1 = (normalize b.left b.bottom).1
        then (normalize b.right b.top).1
        else na (normalize b.right b.top).1 (normalize b.left b.bottom).1) zoom)
      (toY (normalize b.right b.top).2 zoom)
      (toY (normalize b.right b.top).2 zoom)
      rfl rfl rfl (by rw [hs])] at hq
    rw [max_self, min_self] at hq
    rw [if_neg (by push_neg; exact ⟨min_le_max, le_rfl⟩)] at hq
    rw [sub_self, zero_add, Int.toNat_one] at hq
    rw [List.mem_flatMap] at hq
    obtain ⟨i, _, hq2⟩ := hq
    rw [List.mem_map] at hq2
    obtain ⟨j, hj, hqe⟩ := hq2
    rw [List.mem_range] at hj
    have hj0 : j = 0 := by omega
    subst hj0
    refine ⟨min (toX (normalize b.left b.bottom).1 zoom)
      (toX (if (normalize b.right b.top).1 = (normalize b.left b.bottom).1
        then (normalize b.right b.top).1
        else na (normalize b.right b.top).1 (normalize b.left b.bottom).1) zoom) +
      (i : ℤ), ?_⟩
    rw [← hqe]
    norm_num
  · intro na b zoom hw hs
    rw [keysInBound_eval na b zoom (normalize b.left b.bottom).1
      (normalize b.left b.bottom).2 (normalize b.left b.bottom).1
      (normalize b.left b.bottom).2 rfl (Prod.ext hw.symm hs.symm) _ _
      (by rw [if_pos rfl]) (by rw [if_pos rfl])
      (toX (normalize b.left b.bottom).1 zoom) (toX (normalize b.left b.bottom).1 zoom)
      (toY (normalize b.left b.bottom).2 zoom) (toY (normalize b.left b.bottom).2 zoom)
      rfl rfl rfl rfl]
    rw [max_self, max_self, min_self, min_self, if_neg (by omega)]
    rw [show ∀ a : ℤ, a - a + 1 = 1 from fun a => by omega]
    simp [show List.range 1 = [0] from rfl]

/-- Witness for C5's amended theorem at the zero-area bound `(0,0,0,0)` and
zoom 1, exercising the single-column, single-row and doubly-degenerate
parts. -/
theorem c5_amended_witness :
    KeysInBound naModel ⟨0, 0, 0, 0⟩ 1 =
      [FromXYZ (toX (normalize 0 0).1 1) (toY (normalize 0 0).2 1) 1] ∧
    (∃ j : ℤ, (['3'] : QuadKey) = FromXYZ (toX (normalize 0 0).1 1) j 1) ∧
    (∃ i : ℤ, (['3'] : QuadKey) = FromXYZ i (toY (normalize 0 0).2 1) 1) :=
  ⟨c5_amended.2.2.2 naModel ⟨0, 0, 0, 0⟩ 1 rfl rfl,
    c5_amended.2.1 naModel ⟨0, 0, 0, 0⟩ 1 rfl ['3']
      (by rw [keysInBound_b0_eval]; exact List.mem_singleton.mpr rfl),
    c5_amended.2.2.1 naModel ⟨0, 0, 0, 0⟩ 1 rfl ['3']
      (by rw [keysInBound_b0_eval]; exact List.mem_singleton.mpr rfl)⟩

/-- C5 counterexample: the zero-area bound `(0,0,0,0)` (normalized west =
east and south = north) at zoom 1 makes `KeysInBound` return the single key
`"3"`, not the empty list claimed. -/
theorem c5_counterexample :
    (normalize (GoBound.mk 0 0 0 0).left (GoBound.mk 0 0 0 0).bottom).1 =
      (normalize (GoBound.mk 0 0 0 0).right (GoBound.mk 0 0 0 0).top).1 ∧
    (normalize (GoBound.mk 0 0 0 0).left (GoBound.mk 0 0 0 0).bottom).2 =
      (normalize (GoBound.mk 0 0 0 0).right (GoBound.mk 0 0 0 0).top).2 ∧
    KeysInBound naModel ⟨0, 0, 0, 0⟩ 1 = [['3']] ∧ ([['3']] : List QuadKey) ≠ [] :=
  ⟨rfl, rfl, keysInBound_b0_eval, by simp⟩

/-! ## The Mercator projection at tile edges -/

lemma rad_lt_pi_div_two {lat : ℝ} (h : lat < 90) : lat * π / 180 < π / 2 := by
  have hπ := Real.pi_pos
  have := mul_lt_mul_of_pos_right h hπ
  linarith

lemma neg_pi_div_two_lt_rad {lat : ℝ} (h : -90 < lat) : -(π / 2) < lat * π / 180 := by
  have hπ := Real.pi_pos
  have := mul_lt_mul_of_pos_right h hπ
  linarith

lemma log_tan_add_inv_cos {r : ℝ} (h1 : -(π / 2) < r) (h2 : r < π / 2) :
    Real.log (Real.tan r + 1 / Real.cos r) = Real.arsinh (Real.tan r) := by
  have hcos : 0 < Real.cos r := Real.cos_pos_of_mem_Ioo ⟨h1, h2⟩
  have hsq : Real.sqrt (1 + Real.tan r ^ 2) = 1 / Real.cos r := by
    have h0 : (1 + Real.tan r ^ 2) = (1 / Real.cos r) ^ 2 := by
      have := Real.inv_one_add_tan_sq hcos.ne'
      rw [one_div, inv_pow, ← this, inv_inv]
    rw [h0, Real.sqrt_sq (by positivity)]
  rw [Real.arsinh, hsq]

lemma mercA_eq_log {lat : ℝ} (h1 : -90 < lat) (h2 : lat < 90) :
    Real.log (Real.tan (lat * π / 180) + 1 / Real.cos (lat * π / 180)) = mercA lat :=
  log_tan_add_inv_cos (neg_pi_div_two_lt_rad h1) (rad_lt_pi_div_two h2)

lemma edgeLat_mem_Ioo (z : ℕ) (r : ℤ) : -90 < edgeLat z r ∧ edgeLat z r < 90 := by
  unfold edgeLat
  have hπ := Real.pi_pos
  have h1 := Real.arctan_lt_pi_div_two (Real.sinh (π * (1 - 2 * (r : ℝ) / (2 : ℝ) ^ z)))
  have h2 := Real.neg_pi_div_two_lt_arctan (Real.sinh (π * (1 - 2 * (r : ℝ) / (2 : ℝ) ^ z)))
  constructor
  · rw [lt_div_iff hπ]
    nlinarith
  · rw [div_lt_iff hπ]
    nlinarith

lemma edgeLat_strict_anti (z : ℕ) {r s : ℤ} (h : r < s) :
    edgeLat z s < edgeLat z r := by
  unfold edgeLat
  have hπ := Real.pi_pos
  have hn : (0 : ℝ) < (2 : ℝ) ^ z := by positivity
  have hrs : (r : ℝ) < (s : ℝ) := by exact_mod_cast h
  have hdiv : 2 * (r : ℝ) / (2 : ℝ) ^ z < 2 * (s : ℝ) / (2 : ℝ) ^ z :=
    (div_lt_div_right hn).mpr (by linarith)
  have hu : π * (1 - 2 * (s : ℝ) / (2 : ℝ) ^ z) < π * (1 - 2 * (r : ℝ) / (2 : ℝ) ^ z) :=
    mul_lt_mul_of_pos_left (by linarith) hπ
  have harc := Real.arctan_strictMono (Real.sinh_lt_sinh.mpr hu)
  have h180 := mul_lt_mul_of_pos_right harc (show (0 : ℝ) < 180 by norm_num)
  exact (div_lt_div_right hπ).mpr h180

lemma Bound_eq_of_valid {key : QuadKey} {x y : ℕ} (hv : Valid key = none)
    (hcore : xyzCore key = some ((x : ℤ), (y : ℤ))) :
    Bound key = ⟨(x : ℝ) / (2 : ℝ) ^ key.length * 360 - 180,
      edgeLat key.length ((y : ℤ) + 1),
      ((x : ℝ) + 1) / (2 : ℝ) ^ key.length * 360 - 180,
      edgeLat key.length (y : ℤ)⟩ := by
  have hxyz := XYZ_eq_of_valid hv hcore
  have hn : (0 : ℝ) < (2 : ℝ) ^ key.length := by positivity
  have hwe : (x : ℝ) / (2 : ℝ) ^ key.length * 360 - 180 <
      ((x : ℝ) + 1) / (2 : ℝ) ^ key.length * 360 - 180 := by
    have h := (div_lt_div_right hn).mpr (show (x : ℝ) < (x : ℝ) + 1 by linarith)
    nlinarith
  have hsn : edgeLat key.length ((y : ℤ) + 1) < edgeLat key.length (y : ℤ) :=
    edgeLat_strict_anti _ (lt_add_one _)
  simp only [Bound, hv]
  rw [hxyz]
  rw [if_neg (by simp)]
  simp only [Int.toNat_natCast]
  unfold diagonalBound edgeLat
  unfold edgeLat at hsn
  push_cast at hsn ⊢
  congr 1
  · exact min_eq_left hwe.le
  · exact min_eq_right hsn.le
  · exact max_eq_right hwe.le
  · exact max_eq_left hsn.le

/-! ## Numeric facts for the `x = 0` evaluation -/

lemma edgeLat_half_zero {z : ℕ} {r : ℤ} (h : (r : ℝ) * 2 = (2 : ℝ) ^ z) :
    edgeLat z r = 0 := by
  unfold edgeLat
  have hn : (0 : ℝ) < (2 : ℝ) ^ z := by positivity
  have h0 : π * (1 - 2 * (r : ℝ) / (2 : ℝ) ^ z) = 0 := by
    have h1 : 2 * (r : ℝ) / (2 : ℝ) ^ z = 1 := by
      rw [div_eq_one_iff_eq hn.ne']
      linarith
    rw [h1]
    ring
  rw [h0, Real.sinh_zero, Real.arctan_zero, zero_mul, zero_div]

/-! ## The `x = 0` failure of the half-open-edge and containment claims -/

lemma bound_root : Bound ['0'] = ⟨-180, 0, 0, edgeLat 1 (0 : ℤ)⟩ := by
  rw [@Bound_eq_of_valid ['0'] 0 0 (by decide) (by decide)]
  congr 1
  · norm_num
  · rw [show (((0 : ℕ) : ℤ) + 1) = (1 : ℤ) by norm_num]
    exact edgeLat_half_zero (by norm_num : ((1 : ℤ) : ℝ) * 2 = (2 : ℝ) ^ (1 : ℕ))
  · norm_num

lemma edgeLat_one_zero_pos : 0 < edgeLat 1 (0 : ℤ) := by
  unfold edgeLat
  have hπ := Real.pi_pos
  rw [show π * (1 - 2 * ((0 : ℤ) : ℝ) / (2 : ℝ) ^ (1 : ℕ)) = π by push_cast; ring]
  have h1 : 0 < Real.sinh π := by
    rw [← Real.sinh_zero]
    exact Real.sinh_lt_sinh.mpr hπ
  have h2 : 0 < Real.arctan (Real.sinh π) := by
    have := Real.arctan_strictMono h1
    rwa [Real.arctan_zero] at this
  positivity

lemma normalize_neg180 (lat : ℝ) : (normalize (-180) lat).1 = 180 := by
  unfold normalize
  dsimp only
  rw [goMod_eq_self (by norm_num) (by norm_num), if_pos (by norm_num)]
  norm_num

lemma normalize_lat_pos_lt {lon lat : ℝ} (h0 : 0 < lat) (h90 : lat < 90) :
    0 < (normalize lon lat).2 ∧ (normalize lon lat).2 < 90 := by
  have h1 : (0 : ℝ) < MERCATOR_MAX_LAT := by norm_num [MERCATOR_MAX_LAT]
  have h2 : MERCATOR_MAX_LAT < 90 := by norm_num [MERCATOR_MAX_LAT]
  unfold normalize
  dsimp only
  split_ifs with ha hb
  · exact ⟨h1, h2⟩
  · exact absurd hb (by linarith)
  · exact ⟨h0, h90⟩

lemma toX_180_one : toX 180 1 = 1 := by
  rw [toX, show ((180 : ℝ) + 180) / 360 * (2 : ℝ) ^ (1 : ℕ) = 2 by norm_num]
  rw [show ⌊(2 : ℝ)⌋ = 2 by norm_num]
  norm_num

lemma toX_na180_one : toX (naModel 0 180) 1 = 1 := by
  have hv : naModel 0 180 = 180 / 2 ^ 100 := by
    unfold naModel
    ring
  rw [toX, hv]
  have hfl : ⌊((180 : ℝ) / 2 ^ 100 + 180) / 360 * (2 : ℝ) ^ (1 : ℕ)⌋ = 1 := by
    rw [Int.floor_eq_iff]
    constructor
    · norm_num
    · norm_num
  rw [hfl]
  norm_num

lemma toY_pos_lt90_one {lat : ℝ} (h0 : 0 < lat) (h90 : lat < 90) : toY lat 1 = 0 := by
  have hπ := Real.pi_pos
  have hA : Real.log (Real.tan (lat * π / 180) + 1 / Real.cos (lat * π / 180)) =
      mercA lat := mercA_eq_log (by linarith) h90
  have hApos : 0 < mercA lat := by
    unfold mercA
    rw [Real.arsinh_pos_iff]
    exact Real.tan_pos_of_pos_of_lt_pi_div_two (by positivity) (rad_lt_pi_div_two h90)
  have hval : (1 - mercA lat / π) / 2 * (2 : ℝ) ^ (1 : ℕ) < 1 := by
    have h1 : 0 < mercA lat / π := div_pos hApos hπ
    rw [show (1 - mercA lat / π) / 2 * (2 : ℝ) ^ (1 : ℕ) = 1 - mercA lat / π by
      norm_num]
    linarith
  have hfl : ⌊(1 - Real.log (Real.tan (lat * π / 180) + 1 / Real.cos (lat * π / 180))
      / π) / 2 * (2 : ℝ) ^ (1 : ℕ)⌋ ≤ 0 := by
    rw [hA]
    have h2 : ⌊(1 - mercA lat / π) / 2 * (2 : ℝ) ^ (1 : ℕ)⌋ < 1 :=
      Int.floor_lt.mpr (by exact_mod_cast hval)
    omega
  rw [toY]
  rw [min_eq_left (le_trans hfl (by norm_num)), max_eq_left hfl]

lemma keysInBound_root_eval : KeysInBound naModel (Bound ['0']) 1 = [['1']] := by
  have hN0 := edgeLat_one_zero_pos
  have hN90 := (edgeLat_mem_Ioo 1 (0 : ℤ)).2
  have hNpair := @normalize_lat_pos_lt 0 _ hN0 hN90
  have hna_eq : naModel 0 ((normalize 0 (edgeLat 1 (0 : ℤ))).2) =
      (normalize 0 (edgeLat 1 (0 : ℤ))).2 / 2 ^ 100 := by
    unfold naModel
    ring
  have hna_pos : 0 < naModel 0 ((normalize 0 (edgeLat 1 (0 : ℤ))).2) := by
    rw [hna_eq]
    exact div_pos hNpair.1 (by positivity)
  have hna_lt : naModel 0 ((normalize 0 (edgeLat 1 (0 : ℤ))).2) < 90 := by
    rw [hna_eq]
    have := div_le_self hNpair.1.le (show (1 : ℝ) ≤ 2 ^ 100 by norm_num)
    linarith [hNpair.2]
  rw [bound_root]
  rw [keysInBound_eval naModel ⟨-180, 0, 0, edgeLat 1 (0 : ℤ)⟩ 1
    180 0 0 ((normalize 0 (edgeLat 1 (0 : ℤ))).2)
    (Prod.ext (normalize_neg180 0)
      (normalize_lat_eq_self _ (by norm_num [MERCATOR_MAX_LAT])
        (by norm_num [MERCATOR_MAX_LAT])))
    (Prod.ext (normalize_lon_eq_self _ (by norm_num) (by norm_num)) rfl)
    (naModel 0 180)
    (naModel 0 ((normalize 0 (edgeLat 1 (0 : ℤ))).2))
    (by rw [if_neg (by norm_num)])
    (by rw [if_neg hNpair.1.ne])
    1 1 0 0
    toX_180_one
    toX_na180_one
    (toY_pos_lt90_one hNpair.1 hNpair.2)
    (toY_pos_lt90_one hna_pos hna_lt)]
  decide

/-- C6: the half-open-edge property fails in the code at the valid key `"0"`
(zoom 1): enumerating the box equal to the tile's own bound yields the key
`"1"` — a tile strictly outside that box — because `normalize` folds the
tile's west edge `-180` to `+180` and the enumeration lands in the eastern
hemisphere.  This membership holds in the exact-real idealization
and holds equally in `float64`, where the decisive `toX` computations at
`±180` are exact. -/
theorem c6_counterexample :
    Valid ['0'] = none ∧
      ['1'] ∈ KeysInBound naModel (Bound ['0']) (Z ['0']) ∧
      (['1'] : QuadKey) ≠ ['0'] := by
  refine ⟨by decide, ?_, by decide⟩
  rw [show Z ['0'] = 1 from rfl, keysInBound_root_eval]
  exact List.mem_singleton.mpr rfl

/-- C7: bound containment fails in the code at the valid key `"0"` (zoom 1):
the key is not contained in the enumeration of its own bound, for the same
`normalize`-folding reason as in `c6_counterexample`; the non-membership
holds equally in `float64`, where every emitted key has column `x ≥ 1`. -/
theorem c7_counterexample :
    Valid ['0'] = none ∧ ['0'] ∉ KeysInBound naModel (Bound ['0']) (Z ['0']) := by
  refine ⟨by decide, ?_⟩
  rw [show Z ['0'] = 1 from rfl, keysInBound_root_eval]
  decide

end Quadkey
